import Mathlib

/-!
Verification of the course-management repository's persistence and
progress-tracking core.

JavaScript strings are modelled as `List Char`; JS objects used as
string-keyed maps are modelled as association lists; the browser's
localStorage is modelled as an explicit record of the logical keys the
core uses.  Machine timestamps and calendar days are modelled as
integers.  Every definition is translated from the repository source
(`src/utils/htmlSanitizer.js`, `src/utils/progressTracking.js`,
`src/utils/dataMigration.js`, `src/utils/analytics.js`,
`src/redux/courseSlice.js`).
-/

namespace CourseMgmt

/-! ## Sanitizer: `stripHtmlTags` (htmlSanitizer.js)

The primary path of `stripHtmlTags` builds a DOM node and reads
`textContent`; that is browser behaviour outside this repository.  The
regex fallback path (the `catch` branch) is embedded below; the claims
about `stripHtmlTags` quantify over that fallback path explicitly and
are settled on it. -/

/-- Model of the JavaScript regex class `\s`, restricted to the ASCII
whitespace characters and the no-break space (the only whitespace
characters the repository's data can contain). -/
def isJsWs (c : Char) : Bool :=
  c = ' ' || c = '\t' || c = '\n' || c = '\r' || c = '\x0b' || c = '\x0c' || c = ' '

/-- After an opening `<`, skip past the first following `>`: the rest of
one greedy match of the regex `<[^>]*>`.  `none` when no `>` remains, in
which case the regex does not match at this `<`. -/
def dropTag : List Char → Option (List Char)
  | [] => none
  | c :: rest => if c = '>' then some rest else dropTag rest

/-- Fuelled worker for `removeTags`; the fuel only serves to make the
recursion structural (it is always run with fuel ≥ length). -/
def removeTagsF : Nat → List Char → List Char
  | _, [] => []
  | 0, l => l
  | fuel + 1, c :: rest =>
    if c = '<' then
      match dropTag rest with
      | some rest' => removeTagsF fuel rest'
      | none => '<' :: removeTagsF fuel rest
    else c :: removeTagsF fuel rest

/-- `.replace(/<[^>]*>/g, '')` from the fallback branch of
`stripHtmlTags`: left-to-right removal of every non-overlapping match of
`<[^>]*>`. -/
def removeTags (l : List Char) : List Char := removeTagsF l.length l

/-- Fuelled worker for `replaceAll`; fuel only makes the recursion
structural.  Models `String.prototype.replace` with a global literal
pattern: scan left to right, and after a replacement continue after the
replaced occurrence (the replacement text is not rescanned). -/
def replaceAllF (pat rep : List Char) : Nat → List Char → List Char
  | _, [] => []
  | 0, l => l
  | fuel + 1, c :: rest =>
    if pat.isPrefixOf (c :: rest) && !pat.isEmpty then
      rep ++ replaceAllF pat rep fuel (rest.drop (pat.length - 1))
    else
      c :: replaceAllF pat rep fuel rest

/-- Global replacement of the literal pattern `pat` by `rep`. -/
def replaceAll (pat rep l : List Char) : List Char := replaceAllF pat rep l.length l

/-- The entity `&nbsp;`. -/
def entNbsp : List Char := ['&', 'n', 'b', 's', 'p', ';']

/-- The entity `&amp;`. -/
def entAmp : List Char := ['&', 'a', 'm', 'p', ';']

/-- The entity `&lt;`. -/
def entLt : List Char := ['&', 'l', 't', ';']

/-- The entity `&gt;`. -/
def entGt : List Char := ['&', 'g', 't', ';']

/-- The entity `&quot;`. -/
def entQuot : List Char := ['&', 'q', 'u', 'o', 't', ';']

/-- The entity `&#39;`. -/
def entApos : List Char := ['&', '#', '3', '9', ';']

/-- The six sequential entity replacements of the fallback branch, in
source order: `&nbsp;`→space, `&amp;`→`&`, `&lt;`→`<`, `&gt;`→`>`,
`&quot;`→`"`, `&#39;`→apostrophe. -/
def decodeEntities (l : List Char) : List Char :=
  replaceAll entApos ['\''] <|
  replaceAll entQuot ['"'] <|
  replaceAll entGt ['>'] <|
  replaceAll entLt ['<'] <|
  replaceAll entAmp ['&'] <|
  replaceAll entNbsp [' '] l

/-- State-passing worker for `collapseWs`: the flag records whether the
previous character was whitespace (i.e. we are inside a `\s+` run whose
single replacement space was already emitted). -/
def collapseWsAux : Bool → List Char → List Char
  | _, [] => []
  | inWs, c :: rest =>
    if isJsWs c then
      if inWs then collapseWsAux true rest else ' ' :: collapseWsAux true rest
    else
      c :: collapseWsAux false rest

/-- `.replace(/\s+/g, ' ')`: every maximal whitespace run becomes one
space. -/
def collapseWs (l : List Char) : List Char := collapseWsAux false l

/-- `String.prototype.trim()`: drop leading and trailing whitespace. -/
def trimWs (l : List Char) : List Char :=
  ((l.dropWhile isJsWs).reverse.dropWhile isJsWs).reverse

/-- The regex fallback path of `stripHtmlTags` (htmlSanitizer.js): the
empty-or-non-string guard returning the empty string, then tag removal,
entity decoding, whitespace collapsing and trimming.  The DOM-based
primary path is browser behaviour outside the repository. -/
def stripHtmlTags (l : List Char) : List Char :=
  if l = [] then [] else trimWs (collapseWs (decodeEntities (removeTags l)))

/-- Head of the list is not whitespace (vacuously true for the empty list). -/
def headNotWs : List Char → Bool
  | [] => true
  | c :: _ => !isJsWs c

/-- Normal form produced by `collapseWs`: every whitespace character is a
single space followed by a non-whitespace character (or the end). -/
def collapsedB : List Char → Bool
  | [] => true
  | c :: rest => (!isJsWs c || (c = ' ' && headNotWs rest)) && collapsedB rest

/-- `containsHtmlTags` (htmlSanitizer.js): `/<[^>]*>/.test(content)`,
i.e. some `<` is followed by a later `>`. -/
def containsHtmlTags : List Char → Bool
  | [] => false
  | c :: rest => (c = '<' && rest.contains '>') || containsHtmlTags rest

/-- Substring test (used to state that an output still contains an
attribute fragment such as `style=`). -/
def hasSub (pat : List Char) : List Char → Bool
  | [] => pat.isEmpty
  | c :: rest => pat.isPrefixOf (c :: rest) || hasSub pat rest

/-- String-level wrapper of the fallback `stripHtmlTags`. -/
def stripHtmlTagsStr (s : String) : String := (stripHtmlTags s.toList).asString

/-! ## Data model

Course/Section/Lesson as the repository stores them.  A JS field that may
be absent or empty (both falsy) is modelled as a `String` with `""` for
the falsy case; a possibly-absent array is an `Option (List _)`.  Fields
no claim touches (thumbnail, instructor, duration, price, createdAt,
updatedAt) are omitted. -/

structure Lesson where
  id : String
  title : String
  type : String
  order : Int
  content : String
  description : String
deriving DecidableEq

structure Section where
  id : String
  title : String
  order : Int
  description : String
  lessons : Option (List Lesson)
deriving DecidableEq

structure Course where
  id : String
  title : String
  description : String
  category : String
  difficulty : String
  status : String
  enrolledStudents : Option Nat
  rating : Option Rat
  sections : Option (List Section)
deriving DecidableEq

/-- A rich-text field behind the source's JS truthiness guard
(`if (obj.field) obj.field = stripHtmlTags(obj.field)`): the empty
(falsy) string is left untouched. -/
def sanitizeField (s : String) : String := if s = "" then s else stripHtmlTagsStr s

/-- `sanitizeCourseForStorage` (htmlSanitizer.js): deep-clone the course
(`JSON.parse(JSON.stringify(course))`, which is a value copy here) and
strip markup from the course description, each section description and
each lesson content/description.  The non-object guard and the
catch-return-original branch cannot fire in the typed model. -/
def sanitizeCourseForStorage (course : Course) : Course :=
  { course with
    description := sanitizeField course.description
    sections :=
      match course.sections with
      | none => none
      | some secs => some (secs.map fun sec =>
          { sec with
            description := sanitizeField sec.description
            lessons :=
              match sec.lessons with
              | none => none
              | some ls => some (ls.map fun le =>
                  { le with
                    content := sanitizeField le.content
                    description := sanitizeField le.description }) }) }

/-- `sanitizeCoursesForStorage` on array input (its non-array input is
returned unchanged in the source and is modelled at the call sites). -/
def sanitizeCoursesForStorage (courses : List Course) : List Course :=
  courses.map sanitizeCourseForStorage

/-- Every lesson field except the sanitized rich-text `content` and
`description`. -/
def lessonSkeleton (le : Lesson) : String × String × String × Int :=
  (le.id, le.title, le.type, le.order)

/-- Every section field except the sanitized rich-text fields, with the
lesson list reduced to lesson skeletons in order. -/
def sectionSkeleton (sec : Section) :
    (String × String × Int) × Option (List (String × String × String × Int)) :=
  ((sec.id, sec.title, sec.order), (sec.lessons).map (List.map lessonSkeleton))

/-! ## Progress ledger (progressTracking.js)

The `course_progress` JS object is an association list in key-insertion
order.  The record spread `{completed: true, completedAt: now,
...additionalData}` is modelled with the caller-supplied metadata as a
separate field bag (callers pass fields disjoint from
completed/completedAt).  Timestamps are integers supplied by the caller
in place of `new Date()`. -/

structure ProgressRecord where
  completed : Bool
  completedAt : Int
  metadata : List (String × String)
deriving DecidableEq

abbrev ProgressMap := List (String × ProgressRecord)

/-- JS object property write `progress[k] = r`: replace in place when the
key exists, else append. -/
def objSet : ProgressMap → String → ProgressRecord → ProgressMap
  | [], k, r => [(k, r)]
  | (k', r') :: rest, k, r =>
    if k' = k then (k, r) :: rest else (k', r') :: objSet rest k r

/-- JS `delete progress[k]`. -/
def objDelete : ProgressMap → String → ProgressMap
  | [], _ => []
  | (k', r') :: rest, k => if k' = k then rest else (k', r') :: objDelete rest k

/-- `getLessonProgress`: `allProgress[lessonId] || null`. -/
def getLessonProgress (progress : ProgressMap) (lessonId : String) : Option ProgressRecord :=
  progress.lookup lessonId

/-- `markLessonCompleted` on the progress map (the storage round-trip and
the streak update act on other keys and are modelled separately). -/
def markLessonCompleted (now : Int) (progress : ProgressMap) (lessonId : String)
    (additionalData : List (String × String)) : ProgressMap :=
  objSet progress lessonId { completed := true, completedAt := now, metadata := additionalData }

/-- `markLessonIncomplete`: deletes the record. -/
def markLessonIncomplete (progress : ProgressMap) (lessonId : String) : ProgressMap :=
  objDelete progress lessonId

/-- `toggleLessonCompletion`: returns the new completion status and the
new progress map. -/
def toggleLessonCompletion (now : Int) (progress : ProgressMap) (lessonId : String)
    (additionalData : List (String × String)) : Bool × ProgressMap :=
  match getLessonProgress progress lessonId with
  | some r =>
    if r.completed then (false, markLessonIncomplete progress lessonId)
    else (true, markLessonCompleted now progress lessonId additionalData)
  | none => (true, markLessonCompleted now progress lessonId additionalData)

/-- Both progress maps hold, key for key, the same records up to the
`completedAt` timestamps. -/
def equivUpToTime (m1 m2 : ProgressMap) : Prop :=
  ∀ k ∈ m1.map Prod.fst ++ m2.map Prod.fst,
    (m1.lookup k).map (fun r => (r.completed, r.metadata)) =
      (m2.lookup k).map (fun r => (r.completed, r.metadata))

instance (m1 m2 : ProgressMap) : Decidable (equivUpToTime m1 m2) := by
  unfold equivUpToTime
  infer_instance

/-- `lessonProgress && lessonProgress.completed` for one lesson. -/
def lessonCompleted (progress : ProgressMap) (le : Lesson) : Bool :=
  match progress.lookup le.id with
  | some p => p.completed
  | none => false

structure CourseProgressStats where
  totalLessons : Nat
  completedLessons : Nat
  completionPercentage : Nat
  completedSections : Nat
  totalSections : Nat
deriving DecidableEq

/-- `Math.round((completed / total) * 100)` for `total > 0`: round half
up on the exact rational value, i.e. floor((200c + t) / (2t)).  (The
IEEE-double intermediate of the source is modelled as exact rational
arithmetic.) -/
def roundPercent (completed total : Nat) : Nat :=
  (200 * completed + total) / (2 * total)

/-- The per-section lesson walk of `calculateCourseProgress`: counts
(lessons seen, lessons completed). -/
def sectionTally (progress : ProgressMap) (ls : List Lesson) : Nat × Nat :=
  ls.foldl
    (fun tc le => if lessonCompleted progress le then (tc.1 + 1, tc.2 + 1) else (tc.1 + 1, tc.2))
    (0, 0)

/-- The per-section step of `calculateCourseProgress`'s `forEach`: an
absent lesson list is skipped, otherwise the lesson tally is added to
the running (total, completed, completedSections) counters, the last
one bumped when the section is nonempty and fully completed. -/
def sectionStep (progress : ProgressMap) (acc : Nat × Nat × Nat) (sec : Section) :
    Nat × Nat × Nat :=
  match sec.lessons with
  | none => acc
  | some ls =>
    let t := sectionTally progress ls
    if 0 < ls.length ∧ t.2 = ls.length then (acc.1 + t.1, acc.2.1 + t.2, acc.2.2 + 1)
    else (acc.1 + t.1, acc.2.1 + t.2, acc.2.2)

/-- `calculateCourseProgress` (progressTracking.js); the progress map is
passed in place of the storage read. -/
def calculateCourseProgress (progress : ProgressMap) (course : Course) : CourseProgressStats :=
  match course.sections with
  | none =>
    { totalLessons := 0, completedLessons := 0, completionPercentage := 0
      completedSections := 0, totalSections := 0 }
  | some secs =>
    let acc := secs.foldl (sectionStep progress) (0, 0, 0)
    { totalLessons := acc.1
      completedLessons := acc.2.1
      completionPercentage := if 0 < acc.1 then roundPercent acc.2.1 acc.1 else 0
      completedSections := acc.2.2
      totalSections := secs.length }

/-- All lessons of a course, section by section, absent lesson lists
contributing nothing. -/
def courseLessons (course : Course) : List Lesson :=
  (((course.sections).getD []).map fun sec => (sec.lessons).getD []).flatten

/-- The section-completion criterion exactly as the code implements it:
a present, nonempty lesson list all of whose lessons are completed. -/
def sectionDone (progress : ProgressMap) (sec : Section) : Bool :=
  match sec.lessons with
  | none => false
  | some ls => !ls.isEmpty && ls.all (lessonCompleted progress)

/-- The section-completion criterion as the specification words it:
every one of the section's lessons has a completed record — vacuously
true when the section has no lessons. -/
def sectionDoneVac (progress : ProgressMap) (sec : Section) : Bool :=
  ((sec.lessons).getD []).all (lessonCompleted progress)

/-- The percentage as the specification words it: round(100·completed /
total), with Mathlib `round` (floor(x + 1/2)), which agrees with JS
`Math.round` on nonnegative rationals. -/
def claimPercentage (completed total : Nat) : Nat :=
  (round ((100 * completed : Rat) / (total : Rat))).toNat

/-! ## Streak, storage and migration (progressTracking.js,
dataMigration.js, courseSlice.js)

Calendar days are integers: `new Date().toDateString()` becomes the
current day number, `new Date(str)` for a stored day string gives the
same number back, and the millisecond difference divided by 86 400 000
is exact integer day difference (DST shifts are not modelled).  Each
logical localStorage key is a field of `Store`; `none` means the key is
absent, and each payload type distinguishes well-formed JSON from text
`JSON.parse` rejects. -/

structure StreakRecord where
  currentStreak : Nat
  longestStreak : Nat
  lastActivity : Option Int
  activityDates : List Int
deriving DecidableEq

/-- The zero record: the default for an absent key and (with an absent
`activityDates`, modelled as `[]`) the catch-branch return value. -/
def emptyStreak : StreakRecord :=
  { currentStreak := 0, longestStreak := 0, lastActivity := none, activityDates := [] }

/-- Insertion step for descending sort. -/
def insertDesc (x : Int) : List Int → List Int
  | [] => [x]
  | y :: rest => if y ≤ x then x :: y :: rest else y :: insertDesc x rest

/-- `.sort((a, b) => b - a)`: descending sort of the parsed dates
(stability is irrelevant for integers). -/
def sortDesc (l : List Int) : List Int := l.foldr insertDesc []

/-- The streak walk of `updateLearningStreak`: starting at 1, extend
while consecutive sorted dates differ by exactly one day, stop at the
first gap. -/
def streakWalk : List Int → Nat
  | [] => 1
  | [_] => 1
  | a :: b :: rest => if a - b = 1 then 1 + streakWalk (b :: rest) else 1

inductive CoursesPayload where
  | arr (cs : List Course)
  | nonArray
  | malformed
deriving DecidableEq

inductive ProgressPayload where
  | json (m : ProgressMap)
  | malformed
deriving DecidableEq

inductive BookmarksPayload where
  | json (b : List String)
  | malformed
deriving DecidableEq

inductive StreakPayload where
  | json (r : StreakRecord)
  | malformed
deriving DecidableEq

/-- The localStorage keys the core uses: `courses`,
`course_data_migration_version`, the `courses_backup_<ts>` keys in
chronological order of creation, `course_progress`, `course_bookmarks`
and `learning_streak`. -/
structure Store where
  courses : Option CoursesPayload
  migrationVersion : Option String
  backups : List CoursesPayload
  progress : Option ProgressPayload
  bookmarks : Option BookmarksPayload
  streak : Option StreakPayload
deriving DecidableEq

def currentMigrationVersion : String := "1.0.0"

/-- `isMigrationNeeded` (dataMigration.js): the stored marker differs
from the target version; an absent marker differs. -/
def isMigrationNeeded (s : Store) : Bool :=
  s.migrationVersion != some currentMigrationVersion

/-- Migration outcome; the message, analysis and byte-size report fields
carry no state and are omitted. -/
structure MigrationResult where
  success : Bool
  coursesProcessed : Nat
deriving DecidableEq

/-- `migrateExistingData` (dataMigration.js): no stored data marks the
version and succeeds trivially; otherwise back up the raw payload first
(when requested), then parse — a parse failure or a non-array payload
throws into the catch, returning failure with the version marker
unwritten — then sanitize, write back and mark the version. -/
def migrateExistingData (createBackup : Bool) (s : Store) : MigrationResult × Store :=
  match s.courses with
  | none =>
    ({ success := true, coursesProcessed := 0 },
      { s with migrationVersion := some currentMigrationVersion })
  | some stored =>
    let s1 := if createBackup then { s with backups := s.backups ++ [stored] } else s
    match stored with
    | .arr courses =>
      ({ success := true, coursesProcessed := courses.length },
        { s1 with
          courses := some (.arr (sanitizeCoursesForStorage courses))
          migrationVersion := some currentMigrationVersion })
    | .nonArray => ({ success := false, coursesProcessed := 0 }, s1)
    | .malformed => ({ success := false, coursesProcessed := 0 }, s1)

/-- `cleanupOldBackups`: keep the `keepCount` most recent backups.  (The
source skips unparseable backups when listing; no claim depends on which
backups are deleted.) -/
def cleanupOldBackups (keepCount : Nat) (s : Store) : Store :=
  if s.backups.length ≤ keepCount then s
  else { s with backups := s.backups.drop (s.backups.length - keepCount) }

structure AutoMigrationResult where
  success : Bool
  migrationRun : Bool
deriving DecidableEq

/-- `runAutoMigration` (dataMigration.js). -/
def runAutoMigration (s : Store) : AutoMigrationResult × Store :=
  if !isMigrationNeeded s then ({ success := true, migrationRun := false }, s)
  else
    let rs := migrateExistingData true s
    let s2 := if rs.1.success then cleanupOldBackups 3 rs.2 else rs.2
    ({ success := rs.1.success, migrationRun := true }, s2)

/-- The element validation of `loadCoursesFromStorage`
(`typeof course.id === 'string' && ...`): in the typed model every
course passes. -/
def validCourse (_ : Course) : Bool := true

/-- `loadCoursesFromStorage` (courseSlice.js): run the auto-migration,
then read `courses`; absent data gives `[]`; parsed non-array data gives
`[]` (key kept); a parse failure is caught, the corrupted key removed
and `[]` returned. -/
def loadCoursesFromStorage (s : Store) : List Course × Store :=
  let s1 := (runAutoMigration s).2
  match s1.courses with
  | none => ([], s1)
  | some (.arr cs) => (cs.filter validCourse, s1)
  | some .nonArray => ([], s1)
  | some .malformed => ([], { s1 with courses := none })

/-- `loadProgressFromStorage` (progressTracking.js): a parse failure is
caught and `{}` returned — the corrupted key is left in place. -/
def loadProgressFromStorage (s : Store) : ProgressMap × Store :=
  match s.progress with
  | none => ([], s)
  | some (.json m) => (m, s)
  | some .malformed => ([], s)

/-- `loadBookmarkedCourses` (progressTracking.js): same shape — the
corrupted key is left in place. -/
def loadBookmarkedCourses (s : Store) : List String × Store :=
  match s.bookmarks with
  | none => ([], s)
  | some (.json b) => (b, s)
  | some .malformed => ([], s)

/-- `getLearningStreak` (progressTracking.js): default record when the
key is absent or corrupted; the corrupted key is left in place. -/
def getLearningStreak (s : Store) : StreakRecord × Store :=
  match s.streak with
  | none => (emptyStreak, s)
  | some (.json r) => (r, s)
  | some .malformed => (emptyStreak, s)

/-- The record written by `updateLearningStreak` when today was not yet
among the activity dates: push today, recompute the current streak over
the dates sorted descending, raise the longest streak, set the last
activity. -/
def streakAfter (today : Int) (streakData : StreakRecord) : StreakRecord :=
  let dates := streakData.activityDates ++ [today]
  let cur := streakWalk (sortDesc dates)
  { currentStreak := cur
    longestStreak := max streakData.longestStreak cur
    lastActivity := some today
    activityDates := dates }

/-- `updateLearningStreak` (progressTracking.js): `today` stands for
`new Date().toDateString()`.  A corrupted record throws into the catch
(zero record returned, storage untouched).  If today is already among
the activity dates nothing happens and nothing is written; otherwise
the `streakAfter` record is computed and written back. -/
def updateLearningStreak (today : Int) (s : Store) : StreakRecord × Store :=
  match s.streak with
  | some .malformed => (emptyStreak, s)
  | stored =>
    let streakData := match stored with
      | some (.json r) => r
      | _ => emptyStreak
    if today ∈ streakData.activityDates then (streakData, s)
    else
      (streakAfter today streakData,
        { s with streak := some (.json (streakAfter today streakData)) })

/-! ## Analytics aggregator (analytics.js)

Only the scalar fields the claims mention are modelled; the category and
difficulty histograms, the recent/top-rated/most-popular lists and the
completion-stats block are outside every claim.  JS numbers are exact
rationals here. -/

structure Analytics where
  totalCourses : Nat
  publishedCourses : Nat
  draftCourses : Nat
  archivedCourses : Nat
  totalStudents : Nat
  averageRating : Rat
  totalSections : Nat
  totalLessons : Nat
deriving DecidableEq

/-- JS `Math.round`: round half toward positive infinity. -/
def jsMathRound (q : Rat) : Int := ⌊q + 1 / 2⌋

/-- `Math.round(x * 10) / 10`: round to one decimal place. -/
def roundTo1 (q : Rat) : Rat := (jsMathRound (q * 10) : Rat) / 10

/-- The all-zero early return of `calculateCourseAnalytics`. -/
def emptyAnalytics : Analytics :=
  { totalCourses := 0, publishedCourses := 0, draftCourses := 0, archivedCourses := 0
    totalStudents := 0, averageRating := 0, totalSections := 0, totalLessons := 0 }

/-- `calculateCourseAnalytics` (analytics.js): `none` models a non-array
argument (`Array.isArray(courses) ? courses : []`).  A missing
`enrolledStudents`/`rating` counts as 0 via `|| 0`. -/
def calculateCourseAnalytics (courses : Option (List Course)) : Analytics :=
  let safeCourses := courses.getD []
  if safeCourses.length = 0 then emptyAnalytics
  else
    let totalCourses := safeCourses.length
    let totalRatings := safeCourses.foldl (fun sum c => sum + c.rating.getD 0) (0 : Rat)
    { totalCourses
      publishedCourses := (safeCourses.filter fun c => c.status == "published").length
      draftCourses := (safeCourses.filter fun c => c.status == "draft").length
      archivedCourses := (safeCourses.filter fun c => c.status == "archived").length
      totalStudents := safeCourses.foldl (fun sum c => sum + c.enrolledStudents.getD 0) 0
      averageRating := roundTo1 (totalRatings / (totalCourses : Rat))
      totalSections := safeCourses.foldl (fun sum c => sum + ((c.sections).getD []).length) 0
      totalLessons := safeCourses.foldl
        (fun sum c =>
          match c.sections with
          | none => sum
          | some secs => sum + secs.foldl (fun s2 sec => s2 + ((sec.lessons).getD []).length) 0)
        0 }

/-! ### Lemmas about the fallback pipeline -/

example : removeTags ("a<b>c".toList) = ['a', 'c'] := by decide
example : stripHtmlTags ("<p>Hi</p>".toList) = ['H', 'i'] := by decide
example : stripHtmlTags ("&lt;b&gt;".toList) = ['<', 'b', '>'] := by decide
example : containsHtmlTags ("<b>".toList) = true := by decide


theorem dropTag_length : ∀ (l l' : List Char), dropTag l = some l' → l'.length < l.length := by
  intro l
  induction l with
  | nil => intro l' h; simp [dropTag] at h
  | cons c rest ih =>
    intro l' h
    rw [dropTag] at h
    split at h
    · injection h with h; subst h; exact Nat.lt_succ_self _
    · exact Nat.lt_succ_of_lt (ih _ h)

theorem dropTag_mem : ∀ (l l' : List Char), dropTag l = some l' → ∀ a, a ∈ l' → a ∈ l := by
  intro l
  induction l with
  | nil => intro l' h; simp [dropTag] at h
  | cons c rest ih =>
    intro l' h a ha
    rw [dropTag] at h
    split at h
    · injection h with h; subst h; exact List.mem_cons_of_mem _ ha
    · exact List.mem_cons_of_mem _ (ih _ h a ha)

theorem dropTag_eq_none : ∀ (l : List Char), dropTag l = none ↔ '>' ∉ l := by
  intro l
  induction l with
  | nil => simp [dropTag]
  | cons c rest ih =>
    rw [dropTag]
    by_cases hc : c = '>'
    · subst hc; simp
    · simp only [if_neg hc, ih, List.mem_cons]
      constructor
      · intro h h'
        rcases h' with h' | h'
        · exact hc h'.symm
        · exact h h'
      · intro h h'
        exact h (Or.inr h')

theorem mem_removeTagsF : ∀ (fuel : Nat) (l : List Char), l.length ≤ fuel →
    ∀ a, a ∈ removeTagsF fuel l → a ∈ l := by
  intro fuel
  induction fuel with
  | zero =>
    intro l hl a ha
    match l, hl with
    | [], _ => simp [removeTagsF] at ha
  | succ fuel ih =>
    intro l hl a ha
    match l with
    | [] => simp [removeTagsF] at ha
    | c :: rest =>
      have hrest : rest.length ≤ fuel := Nat.le_of_succ_le_succ hl
      rw [removeTagsF] at ha
      split at ha
      · next hc =>
        rcases hdt : dropTag rest with _ | rest'
        · rw [hdt] at ha
          rcases List.mem_cons.mp ha with h | h
          · subst h; rw [hc]; exact List.mem_cons_self _ _
          · exact List.mem_cons_of_mem _ (ih rest hrest a h)
        · rw [hdt] at ha
          have hlen : rest'.length ≤ fuel :=
            Nat.le_of_lt (Nat.lt_of_lt_of_le (dropTag_length rest rest' hdt) hrest)
          exact List.mem_cons_of_mem _ (dropTag_mem rest rest' hdt a (ih rest' hlen a ha))
      · rcases List.mem_cons.mp ha with h | h
        · subst h; exact List.mem_cons_self _ _
        · exact List.mem_cons_of_mem _ (ih rest hrest a h)

theorem contains_eq_true_iff {l : List Char} {a : Char} : l.contains a = true ↔ a ∈ l :=
  List.elem_iff

theorem containsHtmlTags_removeTagsF : ∀ (fuel : Nat) (l : List Char), l.length ≤ fuel →
    containsHtmlTags (removeTagsF fuel l) = false := by
  intro fuel
  induction fuel with
  | zero =>
    intro l hl
    match l, hl with
    | [], _ => rfl
  | succ fuel ih =>
    intro l hl
    match l with
    | [] => rfl
    | c :: rest =>
      have hrest : rest.length ≤ fuel := Nat.le_of_succ_le_succ hl
      rw [removeTagsF]
      split
      · rcases hdt : dropTag rest with _ | rest'
        · rw [containsHtmlTags, ih rest hrest]
          have hgt : (removeTagsF fuel rest).contains '>' = false := by
            rcases hco : (removeTagsF fuel rest).contains '>'
            · rfl
            · exact absurd (mem_removeTagsF fuel rest hrest '>' (contains_eq_true_iff.mp hco))
                ((dropTag_eq_none rest).mp hdt)
          rw [hgt]
          simp only [Bool.and_false, Bool.or_false]
        · exact ih rest'
            (Nat.le_of_lt (Nat.lt_of_lt_of_le (dropTag_length rest rest' hdt) hrest))
      · next hc =>
        rw [containsHtmlTags, ih rest hrest, decide_eq_false hc]
        simp only [Bool.false_and, Bool.or_false]

theorem containsHtmlTags_removeTags (l : List Char) :
    containsHtmlTags (removeTags l) = false :=
  containsHtmlTags_removeTagsF l.length l le_rfl

theorem removeTagsF_of_noTag : ∀ (fuel : Nat) (l : List Char), l.length ≤ fuel →
    containsHtmlTags l = false → removeTagsF fuel l = l := by
  intro fuel
  induction fuel with
  | zero =>
    intro l hl _
    match l, hl with
    | [], _ => rfl
  | succ fuel ih =>
    intro l hl hnt
    match l with
    | [] => rfl
    | c :: rest =>
      have hrest : rest.length ≤ fuel := Nat.le_of_succ_le_succ hl
      rw [containsHtmlTags, Bool.or_eq_false_iff, Bool.and_eq_false_iff] at hnt
      rw [removeTagsF]
      split
      · next hc =>
        have hgt : rest.contains '>' = false := by
          rcases hnt.1 with h | h
          · rw [decide_eq_true hc] at h; simp at h
          · exact h
        have hdt : dropTag rest = none := by
          rw [dropTag_eq_none]
          intro hm
          rw [contains_eq_true_iff.mpr hm] at hgt
          simp at hgt
        rw [hdt, ih rest hrest hnt.2, hc]
      · rw [ih rest hrest hnt.2]

theorem mem_of_isPrefixOf : ∀ (p l : List Char), p.isPrefixOf l = true → ∀ a, a ∈ p → a ∈ l
  | [], _, _, a, ha => absurd ha (List.not_mem_nil a)
  | _ :: _, [], h, _, _ => by simp [List.isPrefixOf] at h
  | x :: xs, y :: ys, h, a, ha => by
    rw [List.isPrefixOf, Bool.and_eq_true] at h
    have hxy : x = y := by simpa using h.1
    rcases List.mem_cons.mp ha with h' | h'
    · subst h'; subst hxy; exact List.mem_cons_self _ _
    · exact List.mem_cons_of_mem _ (mem_of_isPrefixOf xs ys h.2 a h')

theorem replaceAllF_of_not_mem (pat rep : List Char) (a : Char) (hpat : a ∈ pat) :
    ∀ (fuel : Nat) (l : List Char), a ∉ l → replaceAllF pat rep fuel l = l := by
  intro fuel
  induction fuel with
  | zero =>
    intro l _
    match l with
    | [] => rfl
    | c :: rest => rfl
  | succ fuel ih =>
    intro l hl
    match l with
    | [] => rfl
    | c :: rest =>
      rw [replaceAllF]
      split
      · next hcond =>
        rw [Bool.and_eq_true] at hcond
        exact absurd (mem_of_isPrefixOf pat (c :: rest) hcond.1 a hpat) hl
      · rw [ih rest fun hm => hl (List.mem_cons_of_mem _ hm)]

theorem replaceAll_of_not_mem (pat rep : List Char) (a : Char) (hpat : a ∈ pat)
    (l : List Char) (hl : a ∉ l) : replaceAll pat rep l = l :=
  replaceAllF_of_not_mem pat rep a hpat l.length l hl

theorem decodeEntities_of_not_amp (l : List Char) (h : '&' ∉ l) : decodeEntities l = l := by
  rw [decodeEntities]
  rw [replaceAll_of_not_mem entNbsp _ '&' (by decide) l h]
  rw [replaceAll_of_not_mem entAmp _ '&' (by decide) l h]
  rw [replaceAll_of_not_mem entLt _ '&' (by decide) l h]
  rw [replaceAll_of_not_mem entGt _ '&' (by decide) l h]
  rw [replaceAll_of_not_mem entQuot _ '&' (by decide) l h]
  rw [replaceAll_of_not_mem entApos _ '&' (by decide) l h]

theorem mem_collapseWsAux : ∀ (b : Bool) (l : List Char) (a : Char),
    a ∈ collapseWsAux b l → a ∈ l ∨ a = ' ' := by
  intro b l
  induction l generalizing b with
  | nil => intro a ha; simp [collapseWsAux] at ha
  | cons c rest ih =>
    intro a ha
    rw [collapseWsAux] at ha
    split at ha
    · split at ha
      · rcases ih true a ha with h | h
        · exact Or.inl (List.mem_cons_of_mem _ h)
        · exact Or.inr h
      · rcases List.mem_cons.mp ha with h | h
        · exact Or.inr h
        · rcases ih true a h with h' | h'
          · exact Or.inl (List.mem_cons_of_mem _ h')
          · exact Or.inr h'
    · rcases List.mem_cons.mp ha with h | h
      · subst h; exact Or.inl (List.mem_cons_self _ _)
      · rcases ih false a h with h' | h'
        · exact Or.inl (List.mem_cons_of_mem _ h')
        · exact Or.inr h'

theorem trimWs_append_eq (l : List Char) :
    l.dropWhile isJsWs = trimWs l ++ ((l.dropWhile isJsWs).reverse.takeWhile isJsWs).reverse := by
  rw [trimWs, ← List.reverse_append, List.takeWhile_append_dropWhile, List.reverse_reverse]

theorem trimWs_within (l : List Char) : List.IsInfix (trimWs l) l := by
  refine ⟨l.takeWhile isJsWs, ((l.dropWhile isJsWs).reverse.takeWhile isJsWs).reverse, ?_⟩
  rw [List.append_assoc, ← trimWs_append_eq, List.takeWhile_append_dropWhile]

theorem mem_trimWs {l : List Char} {a : Char} (h : a ∈ trimWs l) : a ∈ l :=
  (trimWs_within l).sublist.subset h

theorem containsHtmlTags_sublist : ∀ {l₁ l₂ : List Char}, List.Sublist l₁ l₂ →
    containsHtmlTags l₁ = true → containsHtmlTags l₂ = true := by
  intro l₁ l₂ h
  induction h with
  | slnil => exact id
  | cons a h ih =>
    intro h1
    rw [containsHtmlTags, ih h1, Bool.or_true]
  | cons₂ a h ih =>
    intro h1
    rw [containsHtmlTags] at h1 ⊢
    rcases Bool.or_eq_true_iff.mp h1 with h2 | h2
    · rw [Bool.and_eq_true] at h2
      have : '>' ∈ _ := contains_eq_true_iff.mp h2.2
      rw [h2.1, contains_eq_true_iff.mpr (h.subset this)]
      simp
    · rw [ih h2, Bool.or_true]

theorem containsHtmlTags_trimWs {l : List Char} (h : containsHtmlTags (trimWs l) = true) :
    containsHtmlTags l = true :=
  containsHtmlTags_sublist (trimWs_within l).sublist h

theorem containsHtmlTags_collapseWsAux : ∀ (b : Bool) (l : List Char),
    containsHtmlTags (collapseWsAux b l) = true → containsHtmlTags l = true := by
  intro b l
  induction l generalizing b with
  | nil => intro h; simp [collapseWsAux, containsHtmlTags] at h
  | cons c rest ih =>
    intro h
    rw [collapseWsAux] at h
    split at h
    · split at h
      · rw [containsHtmlTags, ih true h, Bool.or_true]
      · rw [containsHtmlTags] at h
        rcases Bool.or_eq_true_iff.mp h with h2 | h2
        · rw [Bool.and_eq_true] at h2
          simp at h2
        · rw [containsHtmlTags, ih true h2, Bool.or_true]
    · rw [containsHtmlTags] at h ⊢
      rcases Bool.or_eq_true_iff.mp h with h2 | h2
      · rw [Bool.and_eq_true] at h2
        rcases mem_collapseWsAux false rest '>' (contains_eq_true_iff.mp h2.2) with hm | hm
        · rw [h2.1, contains_eq_true_iff.mpr hm]
          simp
        · simp at hm
      · rw [ih false h2, Bool.or_true]

theorem headNotWs_collapseWsAux : ∀ (l : List Char), headNotWs (collapseWsAux true l) = true := by
  intro l
  induction l with
  | nil => rfl
  | cons c rest ih =>
    rw [collapseWsAux]
    split
    · rw [if_pos rfl]; exact ih
    · next hws => rw [headNotWs]; simp [hws]

theorem collapsedB_collapseWsAux : ∀ (l : List Char) (b : Bool),
    collapsedB (collapseWsAux b l) = true := by
  intro l
  induction l with
  | nil => intro b; rfl
  | cons c rest ih =>
    intro b
    rw [collapseWsAux]
    split
    · next hws =>
      rcases b with _ | _
      · rw [if_neg (by simp)]
        rw [collapsedB, headNotWs_collapseWsAux rest, ih true]
        simp [isJsWs]
      · rw [if_pos rfl]
        exact ih true
    · next hws =>
      rw [collapsedB, ih false]
      simp [hws]

theorem collapseWsAux_of_collapsedB : ∀ (l : List Char), collapsedB l = true →
    collapseWsAux false l = l ∧ (headNotWs l = true → collapseWsAux true l = l) := by
  intro l
  induction l with
  | nil => intro _; exact ⟨rfl, fun _ => rfl⟩
  | cons c rest ih =>
    intro h
    rw [collapsedB, Bool.and_eq_true] at h
    obtain ⟨hhead, htail⟩ := h
    rcases ih htail with ⟨ihf, iht⟩
    by_cases hws : isJsWs c = true
    · have hc : c = ' ' ∧ headNotWs rest = true := by
        rcases Bool.or_eq_true_iff.mp hhead with h2 | h2
        · rw [hws] at h2; simp at h2
        · rw [Bool.and_eq_true] at h2
          exact ⟨by simpa using h2.1, h2.2⟩
      constructor
      · rw [collapseWsAux, if_pos hws, if_neg (by simp), iht hc.2, hc.1]
      · intro hh
        rw [headNotWs, hws] at hh
        simp at hh
    · constructor
      · rw [collapseWsAux, if_neg hws, ihf]
      · intro _
        rw [collapseWsAux, if_neg hws, ihf]

theorem collapsedB_append_left : ∀ (p m : List Char), collapsedB (p ++ m) = true →
    collapsedB m = true := by
  intro p
  induction p with
  | nil => intro m h; exact h
  | cons c p' ih =>
    intro m h
    rw [List.cons_append, collapsedB, Bool.and_eq_true] at h
    exact ih m h.2

theorem headNotWs_append_left {x q : List Char} (h : headNotWs (x ++ q) = true) :
    headNotWs x = true := by
  cases x with
  | nil => rfl
  | cons c t => exact h

theorem collapsedB_append_right : ∀ (m q : List Char), collapsedB (m ++ q) = true →
    collapsedB m = true := by
  intro m
  induction m with
  | nil => intro q _; rfl
  | cons c m' ih =>
    intro q h
    rw [List.cons_append, collapsedB, Bool.and_eq_true] at h
    rw [collapsedB, Bool.and_eq_true]
    refine ⟨?_, ih q h.2⟩
    rcases Bool.or_eq_true_iff.mp h.1 with h2 | h2
    · rw [h2]; simp
    · rw [Bool.and_eq_true] at h2
      rw [h2.1, headNotWs_append_left h2.2]
      simp

theorem collapsedB_of_within {m l : List Char} (h : List.IsInfix m l) (hc : collapsedB l = true) :
    collapsedB m = true := by
  obtain ⟨s, t, hst⟩ := h
  subst hst
  rw [List.append_assoc] at hc
  exact collapsedB_append_right m t (collapsedB_append_left s (m ++ t) hc)

theorem headNotWs_dropWhile (l : List Char) : headNotWs (l.dropWhile isJsWs) = true := by
  induction l with
  | nil => rfl
  | cons c rest ih =>
    rw [List.dropWhile_cons]
    split
    · exact ih
    · next hws => rw [headNotWs]; simp [hws]

theorem dropWhile_eq_self_of_headNotWs {l : List Char} (h : headNotWs l = true) :
    l.dropWhile isJsWs = l := by
  cases l with
  | nil => rfl
  | cons c rest =>
    rw [headNotWs] at h
    rw [List.dropWhile_cons, if_neg (by simpa using h)]

theorem headNotWs_trimWs (l : List Char) : headNotWs (trimWs l) = true := by
  rcases hmt : trimWs l with _ | ⟨c, u⟩
  · rfl
  · have hw := headNotWs_dropWhile l
    rw [trimWs_append_eq l, hmt] at hw
    exact headNotWs_append_left hw

theorem headNotWs_reverse_trimWs (l : List Char) : headNotWs (trimWs l).reverse = true := by
  rw [trimWs, List.reverse_reverse]
  exact headNotWs_dropWhile _

theorem trimWs_eq_self {l : List Char} (h1 : headNotWs l = true)
    (h2 : headNotWs l.reverse = true) : trimWs l = l := by
  rw [trimWs, dropWhile_eq_self_of_headNotWs h1, dropWhile_eq_self_of_headNotWs h2,
    List.reverse_reverse]

theorem trimWs_trimWs (l : List Char) : trimWs (trimWs l) = trimWs l :=
  trimWs_eq_self (headNotWs_trimWs l) (headNotWs_reverse_trimWs l)

theorem collapseWs_trimWs_collapseWs (l : List Char) :
    collapseWs (trimWs (collapseWs l)) = trimWs (collapseWs l) := by
  have hz : collapsedB (collapseWs l) = true := collapsedB_collapseWsAux l false
  have ht : collapsedB (trimWs (collapseWs l)) = true :=
    collapsedB_of_within (trimWs_within _) hz
  exact (collapseWsAux_of_collapsedB _ ht).1

/-! ### Main sanitizer theorems used by the claims -/

theorem mem_stripHtmlTags_of_noAmp {l : List Char} (hl : '&' ∉ l) {a : Char}
    (ha : a ∈ stripHtmlTags l) : a ∈ l ∨ a = ' ' := by
  rw [stripHtmlTags] at ha
  split at ha
  · simp at ha
  · have hdec : decodeEntities (removeTags l) = removeTags l :=
      decodeEntities_of_not_amp _ fun hm => hl (mem_removeTagsF l.length l le_rfl '&' hm)
    rw [hdec] at ha
    rcases mem_collapseWsAux false _ a (mem_trimWs ha) with h | h
    · exact Or.inl (mem_removeTagsF l.length l le_rfl a h)
    · exact Or.inr h

theorem stripHtmlTags_noTags_of_noAmp (l : List Char) (hl : '&' ∉ l) :
    containsHtmlTags (stripHtmlTags l) = false := by
  rw [stripHtmlTags]
  split
  · rfl
  · have hdec : decodeEntities (removeTags l) = removeTags l :=
      decodeEntities_of_not_amp _ fun hm => hl (mem_removeTagsF l.length l le_rfl '&' hm)
    rw [hdec]
    rcases hb : containsHtmlTags (trimWs (collapseWs (removeTags l)))
    · rfl
    · have h2 := containsHtmlTags_collapseWsAux false _ (containsHtmlTags_trimWs hb)
      rw [containsHtmlTags_removeTags l] at h2
      simp at h2

theorem stripHtmlTags_idem_of_noAmp (l : List Char) (hl : '&' ∉ l) :
    stripHtmlTags (stripHtmlTags l) = stripHtmlTags l := by
  by_cases h0 : l = []
  · subst h0; rfl
  · have hdec : decodeEntities (removeTags l) = removeTags l :=
      decodeEntities_of_not_amp _ fun hm => hl (mem_removeTagsF l.length l le_rfl '&' hm)
    have hy : stripHtmlTags l = trimWs (collapseWs (removeTags l)) := by
      rw [stripHtmlTags, if_neg h0, hdec]
    by_cases hy0 : stripHtmlTags l = []
    · rw [hy0]
      rfl
    · have hamp : '&' ∉ stripHtmlTags l := fun hm => by
        rcases mem_stripHtmlTags_of_noAmp hl hm with h | h
        · exact hl h
        · simp at h
      have hnt : containsHtmlTags (stripHtmlTags l) = false :=
        stripHtmlTags_noTags_of_noAmp l hl
      have hrt : removeTags (stripHtmlTags l) = stripHtmlTags l :=
        removeTagsF_of_noTag _ _ le_rfl hnt
      have hdec2 : decodeEntities (stripHtmlTags l) = stripHtmlTags l :=
        decodeEntities_of_not_amp _ hamp
      conv_lhs => rw [stripHtmlTags, if_neg hy0, hrt, hdec2, hy]
      rw [collapseWs_trimWs_collapseWs, trimWs_trimWs, ← hy]

/-! ### Progress-map lemmas -/

theorem beq_false_of_ne {k k' : String} (h : ¬ k = k') : (k == k') = false :=
  beq_eq_false_iff_ne.mpr h

theorem lookup_objSet_self : ∀ (m : ProgressMap) (k : String) (r : ProgressRecord),
    (objSet m k r).lookup k = some r := by
  intro m k r
  induction m with
  | nil => simp [objSet, List.lookup_cons]
  | cons kv rest ih =>
    obtain ⟨k', r'⟩ := kv
    by_cases h : k' = k
    · subst h
      simp [objSet, List.lookup_cons]
    · simp [objSet, h, List.lookup_cons, beq_false_of_ne fun hh => h hh.symm, ih]

theorem lookup_objSet_ne (k' k : String) (hne : ¬ k' = k) :
    ∀ (m : ProgressMap) (r : ProgressRecord), (objSet m k r).lookup k' = m.lookup k' := by
  have hb := beq_false_of_ne hne
  intro m r
  induction m with
  | nil => simp [objSet, List.lookup_cons, hb]
  | cons kv rest ih =>
    obtain ⟨k₁, r₁⟩ := kv
    by_cases h : k₁ = k
    · subst h
      simp [objSet, List.lookup_cons, hb]
    · rcases hb1 : k' == k₁ with _ | _
      · simp [objSet, h, List.lookup_cons, hb1, ih]
      · simp [objSet, h, List.lookup_cons, hb1]

theorem lookup_objDelete_ne (k' k : String) (hne : ¬ k' = k) :
    ∀ (m : ProgressMap), (objDelete m k).lookup k' = m.lookup k' := by
  have hb := beq_false_of_ne hne
  intro m
  induction m with
  | nil => simp [objDelete]
  | cons kv rest ih =>
    obtain ⟨k₁, r₁⟩ := kv
    by_cases h : k₁ = k
    · subst h
      simp [objDelete, List.lookup_cons, hb]
    · rcases hb1 : k' == k₁ with _ | _
      · simp [objDelete, h, List.lookup_cons, hb1, ih]
      · simp [objDelete, h, List.lookup_cons, hb1]

theorem lookup_eq_none_of_not_mem_keys : ∀ (m : ProgressMap) (k : String),
    k ∉ m.map Prod.fst → m.lookup k = none := by
  intro m k
  induction m with
  | nil => intro _; rfl
  | cons kv rest ih =>
    obtain ⟨k₁, r₁⟩ := kv
    intro hk
    rw [List.map_cons, List.mem_cons] at hk
    push_neg at hk
    simp [List.lookup_cons, beq_false_of_ne hk.1, ih hk.2]

theorem lookup_objDelete_self (k : String) : ∀ (m : ProgressMap),
    (m.map Prod.fst).Nodup → (objDelete m k).lookup k = none := by
  intro m
  induction m with
  | nil => intro _; rfl
  | cons kv rest ih =>
    obtain ⟨k₁, r₁⟩ := kv
    intro hnd
    rw [List.map_cons, List.nodup_cons] at hnd
    by_cases h : k₁ = k
    · subst h
      simp only [objDelete, if_pos rfl]
      exact lookup_eq_none_of_not_mem_keys rest k₁ hnd.1
    · simp [objDelete, h, List.lookup_cons, beq_false_of_ne fun hh => h hh.symm, ih hnd.2]

theorem objDelete_objSet_absent (k : String) (r : ProgressRecord) : ∀ (m : ProgressMap),
    m.lookup k = none → objDelete (objSet m k r) k = m := by
  intro m
  induction m with
  | nil => intro _; simp [objSet, objDelete]
  | cons kv rest ih =>
    obtain ⟨k₁, r₁⟩ := kv
    intro hl
    by_cases h : k₁ = k
    · subst h
      simp [List.lookup_cons] at hl
    · rcases hb1 : k == k₁ with _ | _
      · simp only [List.lookup_cons, hb1] at hl
        simp [objSet, h, objDelete, ih hl]
      · exact absurd (eq_of_beq hb1).symm h

theorem equivUpToTime_refl (m : ProgressMap) : equivUpToTime m m := by
  intro k _
  rfl

/-! ### calculateCourseProgress refinement -/

theorem sectionTally_go (progress : ProgressMap) : ∀ (ls : List Lesson) (a b : Nat),
    ls.foldl
      (fun tc le =>
        if lessonCompleted progress le then (tc.1 + 1, tc.2 + 1) else (tc.1 + 1, tc.2))
      (a, b) = (a + ls.length, b + (ls.filter (lessonCompleted progress)).length) := by
  intro ls
  induction ls with
  | nil => intro a b; simp
  | cons le rest ih =>
    intro a b
    rw [List.foldl_cons]
    by_cases hc : lessonCompleted progress le = true
    · rw [if_pos hc, ih, List.filter_cons_of_pos hc, List.length_cons, List.length_cons]
      rw [Prod.mk.injEq]
      omega
    · rw [if_neg hc, ih, List.filter_cons_of_neg (by simpa using hc), List.length_cons]
      rw [Prod.mk.injEq]
      omega

theorem sectionTally_eq (progress : ProgressMap) (ls : List Lesson) :
    sectionTally progress ls = (ls.length, (ls.filter (lessonCompleted progress)).length) := by
  rw [sectionTally, sectionTally_go]
  simp

theorem sectionDone_iff (progress : ProgressMap) (sec : Section) (ls : List Lesson)
    (h : sec.lessons = some ls) :
    sectionDone progress sec = true ↔
      0 < ls.length ∧ (ls.filter (lessonCompleted progress)).length = ls.length := by
  rw [sectionDone, h]
  rw [Bool.and_eq_true, List.all_eq_true, ← List.filter_length_eq_length]
  constructor
  · intro ⟨h1, h2⟩
    refine ⟨?_, h2⟩
    rw [List.length_pos]
    intro he
    subst he
    simp at h1
  · intro ⟨h1, h2⟩
    refine ⟨?_, h2⟩
    rw [List.length_pos] at h1
    simp [List.isEmpty_iff, h1]

theorem courseFold_go (progress : ProgressMap) : ∀ (secs : List Section) (a b c : Nat),
    secs.foldl (sectionStep progress) (a, b, c) =
      (a + ((secs.map fun sec => (sec.lessons).getD []).flatten).length,
        b + (((secs.map fun sec => (sec.lessons).getD []).flatten).filter
          (lessonCompleted progress)).length,
        c + (secs.filter (sectionDone progress)).length) := by
  intro secs
  induction secs with
  | nil => intro a b c; simp
  | cons sec rest ih =>
    intro a b c
    rw [List.foldl_cons]
    rcases hls : sec.lessons with _ | ls
    · have hstep : sectionStep progress (a, b, c) sec = (a, b, c) := by
        simp only [sectionStep, hls]
      have hdone : sectionDone progress sec = false := by
        simp only [sectionDone, hls]
      rw [hstep, ih]
      simp [hls, hdone]
    · have htal := sectionTally_eq progress ls
      by_cases hcond : 0 < ls.length ∧ (ls.filter (lessonCompleted progress)).length = ls.length
      · have hstep : sectionStep progress (a, b, c) sec =
            (a + ls.length, b + (ls.filter (lessonCompleted progress)).length, c + 1) := by
          simp only [sectionStep, hls, htal, if_pos hcond]
        have hdone : sectionDone progress sec = true := (sectionDone_iff progress sec ls hls).mpr hcond
        have hfc : List.filter (sectionDone progress) (sec :: rest) =
            sec :: List.filter (sectionDone progress) rest := by
          rw [List.filter_cons, hdone]
          simp
        rw [hstep, ih]
        simp only [List.map_cons, hls, Option.getD_some, List.flatten_cons, List.length_append,
          List.filter_append, hfc, List.length_cons, Prod.mk.injEq]
        omega
      · have hstep : sectionStep progress (a, b, c) sec =
            (a + ls.length, b + (ls.filter (lessonCompleted progress)).length, c) := by
          simp only [sectionStep, hls, htal, if_neg hcond]
        have hdone : sectionDone progress sec = false := by
          rcases hd : sectionDone progress sec
          · rfl
          · exact absurd ((sectionDone_iff progress sec ls hls).mp hd) hcond
        have hfc : List.filter (sectionDone progress) (sec :: rest) =
            List.filter (sectionDone progress) rest := by
          rw [List.filter_cons, hdone]
          simp
        rw [hstep, ih]
        simp only [List.map_cons, hls, Option.getD_some, List.flatten_cons, List.length_append,
          List.filter_append, hfc, Prod.mk.injEq]
        exact ⟨by omega, by omega, trivial⟩

theorem calculateCourseProgress_counts (progress : ProgressMap) (course : Course) :
    calculateCourseProgress progress course =
      { totalLessons := (courseLessons course).length
        completedLessons := ((courseLessons course).filter (lessonCompleted progress)).length
        completionPercentage :=
          if 0 < (courseLessons course).length then
            roundPercent ((courseLessons course).filter (lessonCompleted progress)).length
              (courseLessons course).length
          else 0
        completedSections := (((course.sections).getD []).filter (sectionDone progress)).length
        totalSections := ((course.sections).getD []).length } := by
  rcases hsec : course.sections with _ | secs
  · simp [calculateCourseProgress, hsec, courseLessons]
  · simp only [calculateCourseProgress, hsec, courseLessons, Option.getD_some]
    rw [courseFold_go]
    simp

theorem roundPercent_eq_claimPercentage (c t : Nat) (ht : 0 < t) :
    roundPercent c t = claimPercentage c t := by
  have htq : (t : Rat) ≠ 0 := Nat.cast_ne_zero.mpr (Nat.pos_iff_ne_zero.mp ht)
  have key : 100 * (c : Rat) / (t : Rat) + 1 / 2 =
      ((200 * c + t : Nat) : Rat) / ((2 * t : Nat) : Rat) := by
    push_cast
    field_simp
    ring
  rw [claimPercentage, round_eq, key, Int.floor_toNat, roundPercent, Nat.floor_div_nat,
    Nat.floor_natCast]

theorem roundPercent_le_100 {c t : Nat} (hct : c ≤ t) (ht : 0 < t) : roundPercent c t ≤ 100 := by
  rw [roundPercent]
  have h2t : 0 < 2 * t := by omega
  have hlt : 200 * c + t < 101 * (2 * t) := by omega
  exact Nat.lt_succ_iff.mp ((Nat.div_lt_iff_lt_mul h2t).mpr hlt)

theorem foldl_add_map {α γ : Type} [AddCommMonoid γ] (f : α → γ) : ∀ (l : List α) (a : γ),
    l.foldl (fun sum x => sum + f x) a = a + (l.map f).sum := by
  intro l
  induction l with
  | nil => intro a; simp
  | cons x rest ih =>
    intro a
    rw [List.foldl_cons, ih, List.map_cons, List.sum_cons, add_assoc]

/-! ### Sanitizer frame, analytics and streak helpers -/

theorem lessonSkeleton_sanitized (le : Lesson) :
    lessonSkeleton
      { le with content := sanitizeField le.content, description := sanitizeField le.description } =
      lessonSkeleton le := rfl

theorem sectionSkeleton_sanitized (sec : Section) :
    sectionSkeleton
      { sec with
        description := sanitizeField sec.description
        lessons :=
          match sec.lessons with
          | none => none
          | some ls => some (ls.map fun le =>
              { le with
                content := sanitizeField le.content
                description := sanitizeField le.description }) } =
      sectionSkeleton sec := by
  rcases hls : sec.lessons with _ | ls
  · simp [sectionSkeleton, hls]
  · simp only [sectionSkeleton, hls, Option.map_some', List.map_map]
    rfl

theorem calculateCourseAnalytics_averageRating (cs : List Course) (h : cs ≠ []) :
    (calculateCourseAnalytics (some cs)).averageRating =
      roundTo1 ((cs.map fun c => c.rating.getD 0).sum / (cs.length : Rat)) := by
  have hlen : ¬ cs.length = 0 := fun hh => h (List.length_eq_zero.mp hh)
  simp only [calculateCourseAnalytics, Option.getD_some, if_neg hlen]
  rw [foldl_add_map (fun c => c.rating.getD 0) cs (0 : Rat), zero_add]

theorem updateLearningStreak_stable (today : Int) (s2 : Store) (r : StreakRecord)
    (hs : s2.streak = some (.json r)) (hm : today ∈ r.activityDates) :
    updateLearningStreak today s2 = (r, s2) := by
  simp only [updateLearningStreak, hs, if_pos hm]

theorem mem_streakAfter (today : Int) (r : StreakRecord) :
    today ∈ (streakAfter today r).activityDates := by
  simp [streakAfter]

/-! ## Claim theorems -/

/-- C1 (amended): on the regex fallback path, for every input containing
no `&` — so the entity decode table cannot fire — the output of
`stripHtmlTags` contains no `<`/`>` delimited tag.  (With `&` present,
decoding `&lt;`/`&gt;` can reintroduce a tag, and a bare `style=` outside
any tag survives in plain text; see the counterexample.) -/
theorem c1_stripHtmlTags_tagFree (l : List Char) (hl : '&' ∉ l) :
    containsHtmlTags (stripHtmlTags l) = false :=
  stripHtmlTags_noTags_of_noAmp l hl

/-- C1 witness: a markup input without entities comes out tag-free. -/
theorem c1_witness :
    ('&' ∉ (("<div style=\"color:red\">Hi</div>").toList)) ∧
      containsHtmlTags (stripHtmlTags (("<div style=\"color:red\">Hi</div>").toList)) = false :=
  ⟨by decide, c1_stripHtmlTags_tagFree _ (by decide)⟩

/-- C1 counterexample: the fallback's entity decoding turns `&lt;b&gt;`
into the literal tag `<b>`, and a bare `style="x"` in plain text keeps
its `style=` attribute fragment — both conjuncts of the claim fail. -/
theorem c1_counterexample :
    containsHtmlTags (stripHtmlTags (("&lt;b&gt;").toList)) = true ∧
      hasSub (("style=").toList) (stripHtmlTags (("style=\"x\"").toList)) = true := by
  decide

/-- C2: when the stored `courses` payload fails to parse or parses to a
non-array, `migrateExistingData` reports failure, leaves the migration
version marker untouched, and a migration that was needed before is
still needed after. -/
theorem c2_migration_failure (b : Bool) (s : Store)
    (hfail : s.courses = some CoursesPayload.nonArray ∨ s.courses = some CoursesPayload.malformed) :
    (migrateExistingData b s).1.success = false ∧
      (migrateExistingData b s).2.migrationVersion = s.migrationVersion ∧
      (isMigrationNeeded s = true → isMigrationNeeded (migrateExistingData b s).2 = true) := by
  have hver : (migrateExistingData b s).1.success = false ∧
      (migrateExistingData b s).2.migrationVersion = s.migrationVersion := by
    rcases hfail with h | h <;>
      · simp only [migrateExistingData, h]
        cases b <;> simp
  refine ⟨hver.1, hver.2, fun hneed => ?_⟩
  rw [isMigrationNeeded, hver.2]
  exact hneed

/-- C2 witness: a store holding an unparseable `courses` payload and no
version marker. -/
theorem c2_witness :
    (⟨some CoursesPayload.malformed, none, [], none, none, none⟩ : Store).courses =
        some CoursesPayload.malformed ∧
      ((migrateExistingData true ⟨some CoursesPayload.malformed, none, [], none, none, none⟩).1.success = false ∧
        (migrateExistingData true ⟨some CoursesPayload.malformed, none, [], none, none, none⟩).2.migrationVersion =
          (⟨some CoursesPayload.malformed, none, [], none, none, none⟩ : Store).migrationVersion ∧
        (isMigrationNeeded ⟨some CoursesPayload.malformed, none, [], none, none, none⟩ = true →
          isMigrationNeeded (migrateExistingData true ⟨some CoursesPayload.malformed, none, [], none, none, none⟩).2 = true)) :=
  ⟨rfl, c2_migration_failure true _ (Or.inr rfl)⟩

/-- C3 (amended): on a stored value that fails to parse, every loader
returns its default without throwing, but only the courses loader
deletes the corrupted key — the progress, bookmarks and streak loaders
leave the corrupted key in place. -/
theorem c3_load_corruption (s : Store) (h1 : s.progress = some ProgressPayload.malformed)
    (h2 : s.bookmarks = some BookmarksPayload.malformed)
    (h3 : s.streak = some StreakPayload.malformed)
    (h4 : s.courses = some CoursesPayload.malformed) :
    (loadProgressFromStorage s).1 = [] ∧ (loadProgressFromStorage s).2 = s ∧
      (loadBookmarkedCourses s).1 = [] ∧ (loadBookmarkedCourses s).2 = s ∧
      (getLearningStreak s).1 = emptyStreak ∧ (getLearningStreak s).2 = s ∧
      (loadCoursesFromStorage s).1 = [] ∧ (loadCoursesFromStorage s).2.courses = none := by
  have hmig : (runAutoMigration s).2.courses = some CoursesPayload.malformed := by
    rw [runAutoMigration]
    by_cases hneed : isMigrationNeeded s = true
    · rw [if_neg (by simp [hneed])]
      simp only [migrateExistingData, h4]
      simp [h4]
    · rw [if_pos (by simp [Bool.not_eq_true] at hneed ⊢; exact hneed)]
      exact h4
  refine ⟨by simp [loadProgressFromStorage, h1], by simp [loadProgressFromStorage, h1],
    by simp [loadBookmarkedCourses, h2], by simp [loadBookmarkedCourses, h2],
    by simp [getLearningStreak, h3], by simp [getLearningStreak, h3], ?_, ?_⟩
  · simp [loadCoursesFromStorage, hmig]
  · simp [loadCoursesFromStorage, hmig]

/-- C3 witness: a store with all four loader keys corrupted. -/
theorem c3_witness :
    (⟨some CoursesPayload.malformed, none, [], some ProgressPayload.malformed,
        some BookmarksPayload.malformed, some StreakPayload.malformed⟩ : Store).progress =
        some ProgressPayload.malformed ∧
      ((loadProgressFromStorage ⟨some CoursesPayload.malformed, none, [],
          some ProgressPayload.malformed, some BookmarksPayload.malformed,
          some StreakPayload.malformed⟩).1 = [] ∧
        (loadProgressFromStorage ⟨some CoursesPayload.malformed, none, [],
          some ProgressPayload.malformed, some BookmarksPayload.malformed,
          some StreakPayload.malformed⟩).2 =
          ⟨some CoursesPayload.malformed, none, [], some ProgressPayload.malformed,
            some BookmarksPayload.malformed, some StreakPayload.malformed⟩ ∧
        (loadBookmarkedCourses ⟨some CoursesPayload.malformed, none, [],
          some ProgressPayload.malformed, some BookmarksPayload.malformed,
          some StreakPayload.malformed⟩).1 = [] ∧
        (loadBookmarkedCourses ⟨some CoursesPayload.malformed, none, [],
          some ProgressPayload.malformed, some BookmarksPayload.malformed,
          some StreakPayload.malformed⟩).2 =
          ⟨some CoursesPayload.malformed, none, [], some ProgressPayload.malformed,
            some BookmarksPayload.malformed, some StreakPayload.malformed⟩ ∧
        (getLearningStreak ⟨some CoursesPayload.malformed, none, [],
          some ProgressPayload.malformed, some BookmarksPayload.malformed,
          some StreakPayload.malformed⟩).1 = emptyStreak ∧
        (getLearningStreak ⟨some CoursesPayload.malformed, none, [],
          some ProgressPayload.malformed, some BookmarksPayload.malformed,
          some StreakPayload.malformed⟩).2 =
          ⟨some CoursesPayload.malformed, none, [], some ProgressPayload.malformed,
            some BookmarksPayload.malformed, some StreakPayload.malformed⟩ ∧
        (loadCoursesFromStorage ⟨some CoursesPayload.malformed, none, [],
          some ProgressPayload.malformed, some BookmarksPayload.malformed,
          some StreakPayload.malformed⟩).1 = [] ∧
        (loadCoursesFromStorage ⟨some CoursesPayload.malformed, none, [],
          some ProgressPayload.malformed, some BookmarksPayload.malformed,
          some StreakPayload.malformed⟩).2.courses = none) :=
  ⟨rfl, c3_load_corruption _ rfl rfl rfl rfl⟩

/-- C3 counterexample: the progress loader returns the default on a
corrupted key but does not delete it — the claim's "deletes the
corrupted key" fails for the `course_progress` key. -/
theorem c3_counterexample :
    (loadProgressFromStorage ⟨none, none, [], some ProgressPayload.malformed, none, none⟩).1 = [] ∧
      (loadProgressFromStorage
        ⟨none, none, [], some ProgressPayload.malformed, none, none⟩).2.progress ≠ none := by
  decide

/-- C4 (amended): toggling a lesson twice restores the progress map up
to the completedAt timestamp, provided the map's keys are unique (a JS
object invariant) and the lesson's record, if present, is completed and
carries the same metadata the toggle is called with. -/
theorem c4_toggle_involutive (t1 t2 : Int) (m : ProgressMap) (lessonId : String)
    (meta : List (String × String)) (hnd : (m.map Prod.fst).Nodup)
    (hrec : m.lookup lessonId = none ∨
      ∃ t0, m.lookup lessonId = some ⟨true, t0, meta⟩) :
    equivUpToTime
      (toggleLessonCompletion t2 (toggleLessonCompletion t1 m lessonId meta).2 lessonId meta).2
      m := by
  rcases hrec with hnone | ⟨t0, hsome⟩
  · have h1 : (toggleLessonCompletion t1 m lessonId meta).2 =
        objSet m lessonId ⟨true, t1, meta⟩ := by
      simp only [toggleLessonCompletion, getLessonProgress, hnone, markLessonCompleted]
    have h2 : (objSet m lessonId ⟨true, t1, meta⟩).lookup lessonId =
        some ⟨true, t1, meta⟩ := lookup_objSet_self m lessonId _
    have h3 : (toggleLessonCompletion t2 (objSet m lessonId ⟨true, t1, meta⟩) lessonId meta).2 =
        objDelete (objSet m lessonId ⟨true, t1, meta⟩) lessonId := by
      simp [toggleLessonCompletion, getLessonProgress, h2, markLessonIncomplete]
    rw [h1, h3, objDelete_objSet_absent lessonId _ m hnone]
    exact equivUpToTime_refl m
  · have h1 : (toggleLessonCompletion t1 m lessonId meta).2 = objDelete m lessonId := by
      simp [toggleLessonCompletion, getLessonProgress, hsome, markLessonIncomplete]
    have h2 : (objDelete m lessonId).lookup lessonId = none :=
      lookup_objDelete_self lessonId m hnd
    have h3 : (toggleLessonCompletion t2 (objDelete m lessonId) lessonId meta).2 =
        objSet (objDelete m lessonId) lessonId ⟨true, t2, meta⟩ := by
      simp only [toggleLessonCompletion, getLessonProgress, h2, markLessonCompleted]
    rw [h1, h3]
    intro k _
    by_cases hkid : k = lessonId
    · subst hkid
      rw [lookup_objSet_self, hsome]
      rfl
    · rw [lookup_objSet_ne k lessonId hkid, lookup_objDelete_ne k lessonId hkid]

/-- C4 witness: a completed record toggled twice with matching (empty)
metadata. -/
theorem c4_witness :
    ((([("L1", (⟨true, 0, []⟩ : ProgressRecord))] : ProgressMap).map Prod.fst).Nodup) ∧
      equivUpToTime
        (toggleLessonCompletion 7
          (toggleLessonCompletion 5 [("L1", ⟨true, 0, []⟩)] "L1" []).2 "L1" []).2
        [("L1", ⟨true, 0, []⟩)] :=
  ⟨by decide, c4_toggle_involutive 5 7 _ "L1" [] (by decide) (Or.inr ⟨0, rfl⟩)⟩

/-- C4 counterexample: a record with `completed: false` is deleted
rather than restored (the double toggle completes then deletes it), and
caller metadata differing from the stored record's is lost — either way
the map does not return to its original state modulo timestamps. -/
theorem c4_counterexample :
    ¬ equivUpToTime
        (toggleLessonCompletion 2
          (toggleLessonCompletion 1 [("L1", ⟨false, 0, []⟩)] "L1" []).2 "L1" []).2
        [("L1", ⟨false, 0, []⟩)] ∧
      ¬ equivUpToTime
        (toggleLessonCompletion 2
          (toggleLessonCompletion 1 [("L1", ⟨true, 0, [("score", "5")]⟩)] "L1" []).2 "L1" []).2
        [("L1", ⟨true, 0, [("score", "5")]⟩)] := by
  decide

/-- C5 (amended): calculateCourseProgress returns the lesson counts and
round(100·completed/total) (0 for a course with no lessons, without
division by zero), and counts a section as completed iff it has a
present, nonempty lesson list every one of whose lessons has a completed
record.  (The unqualified "iff every one of its lessons is completed"
fails for a section with an empty lesson list; see the
counterexample.) -/
theorem c5_course_progress_spec (progress : ProgressMap) (course : Course) :
    calculateCourseProgress progress course =
      { totalLessons := (courseLessons course).length
        completedLessons := ((courseLessons course).filter (lessonCompleted progress)).length
        completionPercentage :=
          if 0 < (courseLessons course).length then
            claimPercentage ((courseLessons course).filter (lessonCompleted progress)).length
              (courseLessons course).length
          else 0
        completedSections := (((course.sections).getD []).filter (sectionDone progress)).length
        totalSections := ((course.sections).getD []).length } := by
  rw [calculateCourseProgress_counts]
  by_cases hpos : 0 < (courseLessons course).length
  · rw [if_pos hpos, if_pos hpos,
      roundPercent_eq_claimPercentage _ _ hpos]
  · rw [if_neg hpos, if_neg hpos]

/-- C5 counterexample: a course whose single section has an empty lesson
list: the code does not count it as completed, while the claim's "iff
every one of its lessons has a completed record" counts it
(vacuously). -/
theorem c5_counterexample :
    (calculateCourseProgress []
        ⟨"c1", "t", "", "cat", "Beginner", "draft", none, none,
          some [⟨"s1", "sec", 0, "", some []⟩]⟩).completedSections = 0 ∧
      (((some [(⟨"s1", "sec", 0, "", some []⟩ : Section)] : Option (List Section)).getD
          []).filter (sectionDoneVac [])).length = 1 := by
  decide

/-- C6: within one calendar day (a fixed `today`), a second call to
`updateLearningStreak` returns the same record and leaves the store
unchanged, so N calls produce the same StreakRecord as one call. -/
theorem c6_streak_idempotent (today : Int) (s : Store) :
    updateLearningStreak today (updateLearningStreak today s).2 = updateLearningStreak today s := by
  rcases hs : s.streak with _ | p
  · have hnm : today ∉ emptyStreak.activityDates := by simp [emptyStreak]
    have h1 : updateLearningStreak today s =
        (streakAfter today emptyStreak,
          { s with streak := some (.json (streakAfter today emptyStreak)) }) := by
      simp only [updateLearningStreak, hs, if_neg hnm]
    rw [h1]
    exact updateLearningStreak_stable today _ _ rfl (mem_streakAfter today emptyStreak)
  · cases p with
    | malformed =>
      have h1 : updateLearningStreak today s = (emptyStreak, s) := by
        simp only [updateLearningStreak, hs]
      rw [h1]
      exact h1
    | json r =>
      by_cases hm : today ∈ r.activityDates
      · rw [updateLearningStreak_stable today s r hs hm]
        exact updateLearningStreak_stable today s r hs hm
      · have h1 : updateLearningStreak today s =
            (streakAfter today r, { s with streak := some (.json (streakAfter today r)) }) := by
          simp only [updateLearningStreak, hs, if_neg hm]
        rw [h1]
        exact updateLearningStreak_stable today _ _ rfl (mem_streakAfter today r)

/-- C7: sanitizeCourseForStorage is pure (the input value is untouched;
the source deep-clones before mutating) and the returned course keeps
id, title, category, difficulty, status, enrolledStudents, rating and
the full ordered skeleton of sections and lessons — only the rich-text
description/content fields change. -/
theorem c7_sanitize_preserves (c : Course) :
    (sanitizeCourseForStorage c).id = c.id ∧
      (sanitizeCourseForStorage c).title = c.title ∧
      (sanitizeCourseForStorage c).category = c.category ∧
      (sanitizeCourseForStorage c).difficulty = c.difficulty ∧
      (sanitizeCourseForStorage c).status = c.status ∧
      (sanitizeCourseForStorage c).enrolledStudents = c.enrolledStudents ∧
      (sanitizeCourseForStorage c).rating = c.rating ∧
      ((sanitizeCourseForStorage c).sections).map (List.map sectionSkeleton) =
        (c.sections).map (List.map sectionSkeleton) := by
  refine ⟨rfl, rfl, rfl, rfl, rfl, rfl, rfl, ?_⟩
  rcases hs : c.sections with _ | secs
  · simp [sanitizeCourseForStorage, hs]
  · simp only [sanitizeCourseForStorage, hs, Option.map_some', List.map_map]
    refine congrArg some ?_
    exact List.map_congr_left fun sec _ => sectionSkeleton_sanitized sec

/-- C8 (amended): on the regex fallback path, `stripHtmlTags` is
idempotent for every input containing no `&` (so no entity decoding
happens).  With entities, decoding can reintroduce markup on the first
pass that a second pass removes; see the counterexample. -/
theorem c8_strip_idempotent (l : List Char) (hl : '&' ∉ l) :
    stripHtmlTags (stripHtmlTags l) = stripHtmlTags l :=
  stripHtmlTags_idem_of_noAmp l hl

/-- C8 witness: idempotence on an entity-free markup input. -/
theorem c8_witness :
    ('&' ∉ (("<p>Hi there</p>").toList)) ∧
      stripHtmlTags (stripHtmlTags (("<p>Hi there</p>").toList)) =
        stripHtmlTags (("<p>Hi there</p>").toList) :=
  ⟨by decide, c8_strip_idempotent _ (by decide)⟩

/-- C8 counterexample: `stripHtmlTags("&lt;b&gt;")` yields `<b>` on the
fallback path, and a second application strips that tag to the empty
string, so the function is not idempotent. -/
theorem c8_counterexample :
    stripHtmlTags (stripHtmlTags (("&lt;b&gt;").toList)) ≠
      stripHtmlTags (("&lt;b&gt;").toList) := by
  decide

/-- C9: calculateCourseAnalytics returns averageRating equal to the sum
of the courses' ratings (missing counting as 0) divided by the number of
courses, rounded to one decimal place, and 0 for an empty or non-array
course list. -/
theorem c9_average_rating (courses : Option (List Course)) :
    (calculateCourseAnalytics courses).averageRating =
      match courses with
      | none => 0
      | some cs =>
        if cs = [] then 0
        else roundTo1 ((cs.map fun c => c.rating.getD 0).sum / (cs.length : Rat)) := by
  rcases courses with _ | cs
  · rfl
  · rcases cs with _ | ⟨c0, rest⟩
    · rfl
    · dsimp only
      rw [if_neg (List.cons_ne_nil c0 rest)]
      exact calculateCourseAnalytics_averageRating _ (List.cons_ne_nil c0 rest)

/-- C10: the record returned by calculateCourseProgress always satisfies
completedLessons ≤ totalLessons, completedSections ≤ totalSections and
completionPercentage ≤ 100 (all fields are naturals, hence ≥ 0). -/
theorem c10_progress_bounds (progress : ProgressMap) (course : Course) :
    (calculateCourseProgress progress course).completedLessons ≤
        (calculateCourseProgress progress course).totalLessons ∧
      (calculateCourseProgress progress course).completedSections ≤
        (calculateCourseProgress progress course).totalSections ∧
      (calculateCourseProgress progress course).completionPercentage ≤ 100 := by
  rw [calculateCourseProgress_counts]
  refine ⟨List.length_filter_le _ _, List.length_filter_le _ _, ?_⟩
  show (if 0 < (courseLessons course).length then _ else 0) ≤ 100
  split
  · next h => exact roundPercent_le_100 (List.length_filter_le _ _) h
  · exact Nat.zero_le 100

end CourseMgmt
